import Mathlib

/-!
Shallow embedding of the extractive-summarization and truncation pipeline of
`backend/app/main.py`: the function `create_better_summary` (lines 24-69) and
the summary post-processing inside `get_news_summary` (word capping, lines
683-697, and the translation fallback, lines 699-707).

Python exceptions are modelled by `Option`: a call that may raise returns
`none` exactly when it raises.  The external collaborators (the NLTK sentence
and word tokenizers, the stopword list, the translation provider) are
parameters: the `Tok` structure bundles the tokenizers, and the translation
provider is a `String → Option String` argument.  Python `dict`s are modelled
as insertion-ordered association lists, matching the ordering semantics that
`create_better_summary` relies on.
-/

/-- Characters treated as whitespace by Python's `str.split()`, `str.rstrip()`
and the regex class `\s` (ASCII fragment; all inputs considered here are
ASCII). -/
def pyIsSpace (c : Char) : Bool :=
  c == ' ' || c == '\t' || c == '\n' || c == '\r' || c == Char.ofNat 11 || c == Char.ofNat 12

/-- Sentence-ending punctuation, the regex class `[.!?]` used at main.py line
689. -/
def isPunct (c : Char) : Bool :=
  c == '.' || c == '!' || c == '?'

/-- Model of Python `str.isalnum()` (ASCII fragment): nonempty and every
character alphanumeric.  Used for the filter at main.py line 38. -/
def pyIsAlnumStr (w : String) : Bool :=
  !w.toList.isEmpty && w.toList.all Char.isAlphanum

/-- Accumulator loop behind `pySplitChars`; `cur` is the word currently being
read. -/
def pySplitAux : List Char → List Char → List (List Char)
  | [], cur => if cur.isEmpty then [] else [cur]
  | c :: rest, cur =>
    if pyIsSpace c then
      if cur.isEmpty then pySplitAux rest [] else cur :: pySplitAux rest []
    else
      pySplitAux rest (cur ++ [c])

/-- Model of Python `str.split()` with no argument: split on runs of
whitespace, discarding empty chunks. -/
def pySplitChars (l : List Char) : List (List Char) :=
  pySplitAux l []

/-- String-level wrapper of `pySplitChars`. -/
def pySplit (s : String) : List String :=
  (pySplitChars s.toList).map String.mk

/-- Number of whitespace-delimited words of a string, `len(s.split())` in
Python. -/
def wordCount (s : String) : Nat :=
  (pySplitChars s.toList).length

/-- Model of Python `" ".join(words)` at the character level. -/
def joinWords : List (List Char) → List Char
  | [] => []
  | [w] => w
  | w :: rest => w ++ ' ' :: joinWords rest

/-- Model of Python `str.rstrip()`: drop trailing whitespace. -/
def rstripChars (l : List Char) : List Char :=
  (l.reverse.dropWhile pyIsSpace).reverse

/-- Scan computing the end position of the last match of the regex `[.!?]\s+`
(as in `re.finditer` at main.py line 689: matches are a sentence-punctuation
character followed by a maximal whitespace run, and `end()` points past the
run).  `prevPunct` records whether the previous character was sentence
punctuation, `inRun` whether the scan is inside the whitespace run of a
match, `best` the end of the last match seen so far. -/
def lastEndingAux : List Char → Nat → Bool → Bool → Option Nat → Option Nat
  | [], _, _, _, best => best
  | c :: rest, pos, prevPunct, inRun, best =>
    if pyIsSpace c then
      if prevPunct || inRun then lastEndingAux rest (pos + 1) false true (some (pos + 1))
      else lastEndingAux rest (pos + 1) false false best
    else lastEndingAux rest (pos + 1) (isPunct c) false best

/-- End position of the last `[.!?]\s+` match of a character list, `none` when
there is no match. -/
def lastEnding (l : List Char) : Option Nat :=
  lastEndingAux l 0 false false none

/-- Characters of the ellipsis marker `"..."` appended by the truncation code. -/
def ellipsisChars : List Char :=
  ['.', '.', '.']

/-- String form of the ellipsis marker. -/
def ellipsisStr : String :=
  String.mk ellipsisChars

/-- Word-boundary-safe capping applied to `summary_en` in `get_news_summary`
(main.py lines 683-697): split into words; if at most `maxWords` of them,
return the string unchanged; otherwise rejoin the first `maxWords` words,
cut after the last sentence-ending punctuation followed by whitespace when
one exists (right-stripping the cut), and append the ellipsis marker. -/
def capChars (l : List Char) (maxWords : Nat) : List Char :=
  let words := pySplitChars l
  if words.length ≤ maxWords then l
  else
    let truncated := joinWords (words.take maxWords)
    match lastEnding truncated with
    | some e => rstripChars (truncated.take e) ++ ellipsisChars
    | none => truncated ++ ellipsisChars

/-- String-level wrapper of `capChars`, the `capToWordLimit` operation of the
specification. -/
def capToWordLimit (s : String) (maxWords : Nat) : String :=
  String.mk (capChars s.toList maxWords)

/-- Model of Python `str.lower()` on one character (ASCII fragment). -/
def pyCharLower (c : Char) : Char :=
  if 'A' ≤ c && c ≤ 'Z' then Char.ofNat (c.toNat + 32) else c

/-- Model of Python `str.lower()` (ASCII fragment; all inputs considered here
are ASCII). -/
def pyLower (s : String) : String :=
  String.mk (s.toList.map pyCharLower)

/-- External tokenization collaborators of `create_better_summary`:
`sentTokenize` models `nltk.sent_tokenize`, `wordTokenize` models
`nltk.word_tokenize`, `stopwords` models `stopwords.words('english')`.
A `none` result models the call raising. -/
structure Tok where
  sentTokenize : String → Option (List String)
  wordTokenize : String → Option (List String)
  stopwords : Option (List String)

/-- Single-space separator used by the `' '.join(...)` calls. -/
def spaceStr : String :=
  String.mk ([' '])

/-- Filter of main.py line 38: keep a token when it is alphanumeric and not a
stopword. -/
def keepWord (stop : List String) (w : String) : Bool :=
  pyIsAlnumStr w && !(stop.contains w)

/-- Retained word list of the whole document (main.py lines 37-38); the word
frequency table of lines 41-43 is then `ws.count w` for membership `ws.contains w`. -/
def summarizerWords (stop : List String) (toks : List String) : List String :=
  toks.filter (keepWord stop)

/-- Insertion-ordered dict increment, `d[k] += v` on a `defaultdict(int)`:
update in place when the key exists, append the key at the end otherwise. -/
def bumpScore : List (String × Nat) → String → Nat → List (String × Nat)
  | [], k, v => [(k, v)]
  | p :: rest, k, v => if p.1 = k then (p.1, p.2 + v) :: rest else p :: bumpScore rest k v

/-- Inner scoring loop of main.py lines 49-51 for one sentence occurrence:
for each word token of the sentence, if the word is in the frequency table,
add its frequency to the sentence's score. -/
def scoreSentence (ws : List String) (m : List (String × Nat)) (s : String)
    (toks : List String) : List (String × Nat) :=
  toks.foldl (fun m2 w => if ws.contains w then bumpScore m2 s (ws.count w) else m2) m

/-- Sentence-score dict of main.py lines 46-51: fold the per-sentence scoring
loop over the (sentence, word-tokens) pairs, starting from the empty dict. -/
def sentenceScores (ws : List String) (pairs : List (String × List String)) :
    List (String × Nat) :=
  pairs.foldl (fun m p => scoreSentence ws m p.1 p.2) []

/-- Dict lookup with default 0, `sentence_scores[s]` on a `defaultdict(int)`. -/
def lookupScore : List (String × Nat) → String → Nat
  | [], _ => 0
  | p :: rest, k => if p.1 = k then p.2 else lookupScore rest k

/-- Score contributed by one occurrence of a sentence: the sum over its word
tokens of the document frequency of the word, with words absent from the
table contributing 0. -/
def sentenceRawScore (ws : List String) (toks : List String) : Nat :=
  (toks.map (fun w => if ws.contains w then ws.count w else 0)).sum

/-- Stable insertion of an entry into a list sorted by score descending: the
entry goes before the first strictly smaller score and after all earlier
entries with an equal or larger score. -/
def insertDesc (x : String × Nat) : List (String × Nat) → List (String × Nat)
  | [] => [x]
  | y :: ys => if y.2 ≤ x.2 then x :: y :: ys else y :: insertDesc x ys

/-- Model of Python's stable `sorted(items, key=score, reverse=True)` at
main.py line 54 (insertion sort is stable, so it agrees with any stable sort
by the same key). -/
def sortDesc : List (String × Nat) → List (String × Nat)
  | [] => []
  | x :: xs => insertDesc x (sortDesc xs)

/-- Reassembly loop of main.py lines 58-63: walk the sentences in original
order, collect those whose text is among the top sentences, and break as soon
as `maxS` have been collected. -/
def collectTop (top : List String) (maxS : Nat) : List String → List String → List String
  | [], acc => acc
  | s :: rest, acc =>
    if top.contains s then
      if maxS ≤ acc.length + 1 then acc ++ [s]
      else collectTop top maxS rest (acc ++ [s])
    else collectTop top maxS rest acc

/-- Word-tokenization of every sentence (the `word_tokenize(sentence.lower())`
calls inside the scoring loop, main.py line 48), paired with the sentence;
fails when any call fails. -/
def tokenizeAll (T : Tok) : List String → Option (List (String × List String))
  | [] => some []
  | s :: rest =>
    match T.wordTokenize (pyLower s), tokenizeAll T rest with
    | some toks, some ps => some ((s, toks) :: ps)
    | _, _ => none

/-- Body of the `try` block of `create_better_summary` (main.py lines 29-65):
sentence-tokenize; return the text unchanged when it has at most `maxS`
sentences; otherwise build the frequency table from the lower-cased document,
score every sentence, stable-sort by score descending, take the top `maxS`
sentence texts, and rejoin the matching sentences in original order. -/
def tryBody (T : Tok) (text : String) (maxS : Nat) : Option String :=
  match T.sentTokenize text with
  | none => none
  | some sentences =>
    if sentences.length ≤ maxS then some text
    else
      match T.stopwords with
      | none => none
      | some stop =>
        match T.wordTokenize (pyLower text) with
        | none => none
        | some textToks =>
          let ws := summarizerWords stop textToks
          match tokenizeAll T sentences with
          | none => none
          | some pairs =>
            let scores := sentenceScores ws pairs
            let top := ((sortDesc scores).take maxS).map Prod.fst
            some (String.intercalate spaceStr (collectTop top maxS sentences []))

/-- Model of `create_better_summary` (main.py lines 24-69): run the `try`
body; on failure fall back to the `except` branch, which sentence-tokenizes
the text AGAIN and joins the first `maxS` sentences - so the fallback itself
fails (the exception escapes) exactly when the sentence tokenizer fails. -/
def create_better_summary (T : Tok) (text : String) (maxS : Nat) : Option String :=
  match tryBody T text maxS with
  | some s => some s
  | none =>
    match T.sentTokenize text with
    | some sentences => some (String.intercalate spaceStr (sentences.take maxS))
    | none => none

/-- Translation block of `get_news_summary` (main.py lines 699-707):
`summary_zh` is the provider's output, or `summary_en` itself when the
provider raises. -/
def translateStep (translate : String → Option String) (summaryEn : String) : String :=
  match translate summaryEn with
  | some zh => zh
  | none => summaryEn

/-- Pair `(summary_en, summary_zh)` of the response of `get_news_summary`. -/
def newsSummaryFields (translate : String → Option String) (summaryEn : String) :
    String × String :=
  (summaryEn, translateStep translate summaryEn)

/-- Word-count state machine equivalent to `pySplitChars` length: counts word
starts; the Bool argument records whether the previous character was
whitespace (or the start of the string). -/
def cwAux : List Char → Bool → Nat
  | [], _ => 0
  | c :: rest, prevWs =>
    if pyIsSpace c then cwAux rest true
    else (if prevWs then 1 else 0) + cwAux rest false

/-- State of `cwAux` after consuming a list: whether the last character is
whitespace (`b` when the list is empty). -/
def lastWs : List Char → Bool → Bool
  | [], b => b
  | c :: rest, _ => lastWs rest (pyIsSpace c)

/-- Demonstration word tokenizer: maximal alphanumeric runs are tokens and
every other non-space character is a one-character token, similar to
`nltk.word_tokenize` on simple ASCII prose. -/
def naiveWordAux : List Char → List Char → List (List Char)
  | [], cur => if cur.isEmpty then [] else [cur]
  | c :: rest, cur =>
    if c.isAlphanum then naiveWordAux rest (cur ++ [c])
    else
      (if cur.isEmpty then [] else [cur]) ++
        (if pyIsSpace c then naiveWordAux rest [] else [c] :: naiveWordAux rest [])

/-- String-level demonstration word tokenizer. -/
def naiveWordTokenize (s : String) : List String :=
  (naiveWordAux s.toList []).map String.mk

/-- Demonstration sentence tokenizer: a sentence ends at a `[.!?]` character
followed by whitespace; whitespace between sentences is skipped, similar to
`nltk.sent_tokenize` on simple ASCII prose. -/
def naiveSentAux : List Char → List Char → List (List Char)
  | [], cur => if cur.isEmpty then [] else [cur]
  | c :: rest, cur =>
    if pyIsSpace c && cur.isEmpty then naiveSentAux rest []
    else
      match rest with
      | [] => [cur ++ [c]]
      | d :: _ =>
        if isPunct c && pyIsSpace d then (cur ++ [c]) :: naiveSentAux rest []
        else naiveSentAux rest (cur ++ [c])

/-- String-level demonstration sentence tokenizer. -/
def naiveSentTokenize (s : String) : List String :=
  (naiveSentAux s.toList []).map String.mk

/-- Small stopword list standing in for `stopwords.words('english')` in
concrete instantiations. -/
def demoStopwords : List String :=
  ["the", "of", "is", "a", "and", "to", "in"]

/-- Collaborator instantiation in which every call succeeds. -/
def demoTok : Tok :=
  { sentTokenize := fun t => some (naiveSentTokenize t)
    wordTokenize := fun t => some (naiveWordTokenize t)
    stopwords := some demoStopwords }

/-- Collaborator instantiation in which the sentence tokenizer raises (as when
the NLTK `punkt` resource is unavailable). -/
def failSentTok : Tok :=
  { sentTokenize := fun _ => none
    wordTokenize := fun t => some (naiveWordTokenize t)
    stopwords := some demoStopwords }

/-- Collaborator instantiation in which the word tokenizer raises while
sentence tokenization works, so scoring fails and the fallback runs. -/
def wordFailTok : Tok :=
  { sentTokenize := fun t => some (naiveSentTokenize t)
    wordTokenize := fun _ => none
    stopwords := some demoStopwords }

/-- Concrete 501-word string with no sentence punctuation, used to exercise
the truncation branch of the word capping. -/
def manyWordsStr : String :=
  String.mk (joinWords (List.replicate 501 (['a', 'b'])))

/-! Lemmas about the word-count state machine and `pySplitChars`. -/

theorem lastWs_nil (b : Bool) : lastWs [] b = b := rfl

theorem lastWs_cons (c : Char) (l : List Char) (b : Bool) :
    lastWs (c :: l) b = lastWs l (pyIsSpace c) := rfl

theorem lastWs_concat (l : List Char) (c : Char) (b : Bool) :
    lastWs (l ++ [c]) b = pyIsSpace c := by
  induction l generalizing b with
  | nil => rfl
  | cons d t ih => rw [List.cons_append, lastWs_cons, ih]

theorem cwAux_append (l1 l2 : List Char) (b : Bool) :
    cwAux (l1 ++ l2) b = cwAux l1 b + cwAux l2 (lastWs l1 b) := by
  induction l1 generalizing b with
  | nil => simp [cwAux, lastWs_nil]
  | cons c t ih =>
    rw [List.cons_append]
    by_cases h : pyIsSpace c = true
    · rw [cwAux, if_pos h, cwAux, if_pos h, ih, lastWs_cons, h]
    · rw [cwAux, if_neg h, cwAux, if_neg h, ih, lastWs_cons,
        Bool.eq_false_iff.mpr h, Nat.add_assoc]

theorem cwAux_prefix_le (l1 l2 : List Char) (b : Bool) :
    cwAux l1 b ≤ cwAux (l1 ++ l2) b := by
  rw [cwAux_append]
  exact Nat.le_add_right _ _

theorem cwAux_of_all_space (l : List Char) (h : ∀ c ∈ l, pyIsSpace c = true) (b : Bool) :
    cwAux l b = 0 := by
  induction l generalizing b with
  | nil => rfl
  | cons c t ih =>
    rw [cwAux, if_pos (h c (List.mem_cons_self c t))]
    exact ih (fun x hx => h x (List.mem_cons_of_mem c hx)) true

theorem pySplitAux_length (l : List Char) (cur : List Char) :
    (pySplitAux l cur).length = (if cur.isEmpty then 0 else 1) + cwAux l cur.isEmpty := by
  induction l generalizing cur with
  | nil => cases cur <;> simp [pySplitAux, cwAux]
  | cons c t ih =>
    by_cases h : pyIsSpace c = true
    · cases cur with
      | nil => simp [pySplitAux, cwAux, h, ih []]
      | cons x xs =>
        simp only [pySplitAux, cwAux, h, if_pos, List.isEmpty_cons, Bool.false_eq_true,
          if_false, List.length_cons, ih [], List.isEmpty_nil, if_true]
        omega
    · cases cur with
      | nil =>
        have h1 : (pySplitAux (c :: t) []).length = (pySplitAux t [c]).length := by
          rw [pySplitAux, if_neg h]
          rfl
        rw [h1, ih [c], cwAux, if_neg h]
        simp
      | cons x xs =>
        have hne : ((x :: xs) ++ [c]).isEmpty = false := by simp
        rw [pySplitAux, if_neg h, ih ((x :: xs) ++ [c]), hne, cwAux, if_neg h]
        simp

theorem pySplitChars_length_eq (l : List Char) :
    (pySplitChars l).length = cwAux l true := by
  simpa using pySplitAux_length l []

theorem pySplitChars_take_le (l : List Char) (n : Nat) :
    (pySplitChars (l.take n)).length ≤ (pySplitChars l).length := by
  rw [pySplitChars_length_eq, pySplitChars_length_eq]
  conv_rhs => rw [← List.take_append_drop n l]
  exact cwAux_prefix_le _ _ _

theorem rstrip_append (l : List Char) :
    rstripChars l ++ (l.reverse.takeWhile pyIsSpace).reverse = l := by
  rw [rstripChars, ← List.reverse_append, List.takeWhile_append_dropWhile, List.reverse_reverse]

theorem pySplitChars_rstrip_length (l : List Char) :
    (pySplitChars (rstripChars l)).length = (pySplitChars l).length := by
  conv_rhs => rw [← rstrip_append l]
  rw [pySplitChars_length_eq, pySplitChars_length_eq, cwAux_append,
    cwAux_of_all_space _ (fun c hc => List.mem_takeWhile_imp (List.mem_reverse.mp hc)) _,
    Nat.add_zero]

theorem dropWhile_head_not (p : Char → Bool) (l : List Char) :
    l.dropWhile p = [] ∨ ∃ c t, l.dropWhile p = c :: t ∧ p c = false := by
  induction l with
  | nil => exact Or.inl rfl
  | cons c t ih =>
    by_cases h : pyIsSpace c = true
    · by_cases hp : p c = true
      · rw [List.dropWhile_cons, if_pos hp]
        exact ih
      · rw [List.dropWhile_cons, if_neg hp]
        exact Or.inr ⟨c, t, rfl, Bool.eq_false_iff.mpr hp⟩
    · by_cases hp : p c = true
      · rw [List.dropWhile_cons, if_pos hp]
        exact ih
      · rw [List.dropWhile_cons, if_neg hp]
        exact Or.inr ⟨c, t, rfl, Bool.eq_false_iff.mpr hp⟩

theorem rstrip_lastWs (l : List Char) (b : Bool) :
    rstripChars l = [] ∨ lastWs (rstripChars l) b = false := by
  rcases dropWhile_head_not pyIsSpace l.reverse with h | ⟨c, t, h, hc⟩
  · exact Or.inl (by rw [rstripChars, h]; rfl)
  · refine Or.inr ?_
    rw [rstripChars, h, List.reverse_cons, lastWs_concat, hc]

/-! Lemmas about `joinWords` and the split/join round trip. -/

theorem joinWords_cons_ne (w : List Char) (l : List (List Char)) (h : l ≠ []) :
    joinWords (w :: l) = w ++ ' ' :: joinWords l := by
  cases l with
  | nil => exact absurd rfl h
  | cons x xs => rfl

theorem joinWords_append_last (init : List (List Char)) (w t : List Char) :
    joinWords (init ++ [w]) ++ t = joinWords (init ++ [w ++ t]) := by
  induction init with
  | nil => rfl
  | cons x xs ih =>
    have h1 : xs ++ [w] ≠ [] := by simp
    have h2 : xs ++ [w ++ t] ≠ [] := by simp
    rw [List.cons_append, joinWords_cons_ne x _ h1, List.cons_append,
      joinWords_cons_ne x _ h2, List.append_assoc, List.cons_append, ih]

theorem pySplitAux_nonspace_shift (w : List Char) (l cur : List Char)
    (hw : ∀ c ∈ w, pyIsSpace c = false) :
    pySplitAux (w ++ l) cur = pySplitAux l (cur ++ w) := by
  induction w generalizing cur with
  | nil => simp
  | cons c t ih =>
    have hc : ¬ pyIsSpace c = true := by
      rw [hw c (List.mem_cons_self c t)]
      exact Bool.false_ne_true
    rw [List.cons_append, pySplitAux, if_neg hc,
      ih (cur ++ [c]) (fun x hx => hw x (List.mem_cons_of_mem c hx)), List.append_assoc,
      List.singleton_append]

theorem pySplit_joinWords (ws : List (List Char))
    (h : ∀ w ∈ ws, w ≠ [] ∧ ∀ c ∈ w, pyIsSpace c = false) :
    pySplitChars (joinWords ws) = ws := by
  induction ws with
  | nil => rfl
  | cons w rest ih =>
    obtain ⟨hne, hout⟩ := h w (List.mem_cons_self w rest)
    cases rest with
    | nil =>
      show pySplitAux w [] = [w]
      have h1 : pySplitAux (w ++ []) [] = pySplitAux [] ([] ++ w) :=
        pySplitAux_nonspace_shift w [] [] hout
      rw [List.append_nil] at h1
      rw [List.nil_append] at h1
      rw [h1, pySplitAux, if_neg (by simpa [List.isEmpty_iff] using hne)]
    | cons x rest2 =>
      rw [joinWords_cons_ne w _ (by simp)]
      show pySplitAux (w ++ ' ' :: joinWords (x :: rest2)) [] = w :: x :: rest2
      rw [pySplitAux_nonspace_shift w _ [] hout, List.nil_append, pySplitAux,
        if_pos (by rfl), if_neg (by simpa [List.isEmpty_iff] using hne)]
      exact congrArg (w :: ·) (ih (fun v hv => h v (List.mem_cons_of_mem w hv)))

theorem pySplitAux_words_good (l : List Char) :
    ∀ (cur : List Char), (∀ c ∈ cur, pyIsSpace c = false) →
      ∀ w ∈ pySplitAux l cur, w ≠ [] ∧ ∀ c ∈ w, pyIsSpace c = false := by
  induction l with
  | nil =>
    intro cur hcur w hw
    by_cases h : cur.isEmpty = true
    · rw [pySplitAux, if_pos h] at hw
      exact absurd hw (List.not_mem_nil w)
    · rw [pySplitAux, if_neg h] at hw
      rcases List.mem_singleton.mp hw with rfl
      exact ⟨by simpa [List.isEmpty_iff] using h, hcur⟩
  | cons c t ih =>
    intro cur hcur w hw
    by_cases hs : pyIsSpace c = true
    · by_cases h : cur.isEmpty = true
      · rw [pySplitAux, if_pos hs, if_pos h] at hw
        exact ih [] (by simp) w hw
      · rw [pySplitAux, if_pos hs, if_neg h] at hw
        rcases List.mem_cons.mp hw with rfl | hw2
        · exact ⟨by simpa [List.isEmpty_iff] using h, hcur⟩
        · exact ih [] (by simp) w hw2
    · rw [pySplitAux, if_neg hs] at hw
      refine ih (cur ++ [c]) ?_ w hw
      intro x hx
      rcases List.mem_append.mp hx with hx1 | hx2
      · exact hcur x hx1
      · rcases List.mem_singleton.mp hx2 with rfl
        exact Bool.eq_false_iff.mpr hs

theorem mem_joinWords (ws : List (List Char)) (c : Char) (hc : c ∈ joinWords ws) :
    c = ' ' ∨ ∃ w ∈ ws, c ∈ w := by
  induction ws with
  | nil => exact absurd hc (List.not_mem_nil c)
  | cons w rest ih =>
    cases rest with
    | nil => exact Or.inr ⟨w, List.mem_cons_self w [], hc⟩
    | cons x rest2 =>
      rw [joinWords_cons_ne w _ (by simp)] at hc
      rcases List.mem_append.mp hc with h1 | h2
      · exact Or.inr ⟨w, List.mem_cons_self w _, h1⟩
      · rcases List.mem_cons.mp h2 with rfl | h3
        · exact Or.inl rfl
        · rcases ih h3 with h4 | ⟨v, hv, hcv⟩
          · exact Or.inl h4
          · exact Or.inr ⟨v, List.mem_cons_of_mem w hv, hcv⟩

theorem lastEndingAux_no_punct (l : List Char) :
    ∀ (pos : Nat) (best : Option Nat), (∀ c ∈ l, isPunct c = false) →
      lastEndingAux l pos false false best = best := by
  induction l with
  | nil => intro pos best _; rfl
  | cons c t ih =>
    intro pos best h
    by_cases hs : pyIsSpace c = true
    · rw [lastEndingAux, if_pos hs, if_neg (by simp)]
      exact ih _ _ (fun x hx => h x (List.mem_cons_of_mem c hx))
    · rw [lastEndingAux, if_neg hs, h c (List.mem_cons_self c t)]
      exact ih _ _ (fun x hx => h x (List.mem_cons_of_mem c hx))

/-! Lemmas about `capChars` and `capToWordLimit`. -/

theorem capChars_of_le (l : List Char) (maxW : Nat) (h : (pySplitChars l).length ≤ maxW) :
    capChars l maxW = l := by
  simp only [capChars]
  rw [if_pos h]

theorem count_join_append_ell (tw : List (List Char))
    (hgood : ∀ w ∈ tw, w ≠ [] ∧ ∀ c ∈ w, pyIsSpace c = false) (hne : tw ≠ []) :
    (pySplitChars (joinWords tw ++ ellipsisChars)).length = tw.length := by
  obtain ⟨init, w, rfl⟩ : ∃ init w, tw = init ++ [w] := by
    rcases List.eq_nil_or_concat tw with hnil | ⟨init, w, hcw⟩
    · exact absurd hnil hne
    · exact ⟨init, w, by rw [hcw, List.concat_eq_append]⟩
  have hell : ∀ c ∈ ellipsisChars, pyIsSpace c = false := by decide
  rw [joinWords_append_last, pySplit_joinWords]
  · simp
  · intro v hv
    rcases List.mem_append.mp hv with h1 | h2
    · exact hgood v (List.mem_append.mpr (Or.inl h1))
    · rcases List.mem_singleton.mp h2 with rfl
      obtain ⟨hwne, hwout⟩ := hgood w (List.mem_append.mpr (Or.inr (List.mem_singleton.mpr rfl)))
      refine ⟨by simp [ellipsisChars], ?_⟩
      intro c hc
      rcases List.mem_append.mp hc with hc1 | hc2
      · exact hwout c hc1
      · exact hell c hc2

theorem count_rstrip_append_ell (x : List Char) :
    (pySplitChars (rstripChars x ++ ellipsisChars)).length ≤
      max 1 (pySplitChars x).length := by
  rcases rstrip_lastWs x true with h | h
  · rw [h, List.nil_append]
    exact le_max_left _ _
  · have hz : cwAux ellipsisChars false = 0 := by decide
    rw [pySplitChars_length_eq, cwAux_append, h, hz, Nat.add_zero,
      ← pySplitChars_length_eq, pySplitChars_rstrip_length]
    exact le_max_right _ _

theorem capChars_count_le (l : List Char) (maxW : Nat) (h0 : 0 < maxW)
    (h : maxW < (pySplitChars l).length) :
    (pySplitChars (capChars l maxW)).length ≤ maxW := by
  have hnle : ¬ ((pySplitChars l).length ≤ maxW) := Nat.not_le.mpr h
  have hgood : ∀ w ∈ (pySplitChars l).take maxW, w ≠ [] ∧ ∀ c ∈ w, pyIsSpace c = false :=
    fun w hw => pySplitAux_words_good l [] (by simp) w (List.take_subset _ _ hw)
  have htwlen : ((pySplitChars l).take maxW).length = maxW := by
    rw [List.length_take]
    omega
  have hjoin : (pySplitChars (joinWords ((pySplitChars l).take maxW))).length = maxW := by
    rw [pySplit_joinWords _ hgood, htwlen]
  cases he : lastEnding (joinWords ((pySplitChars l).take maxW)) with
  | none =>
    have hres : capChars l maxW = joinWords ((pySplitChars l).take maxW) ++ ellipsisChars := by
      simp only [capChars, if_neg hnle, he]
    rw [hres, count_join_append_ell _ hgood (by rw [← List.length_pos, htwlen]; exact h0), htwlen]
  | some e =>
    have hres : capChars l maxW =
        rstripChars ((joinWords ((pySplitChars l).take maxW)).take e) ++ ellipsisChars := by
      simp only [capChars, if_neg hnle, he]
    rw [hres]
    calc (pySplitChars (rstripChars ((joinWords ((pySplitChars l).take maxW)).take e) ++
            ellipsisChars)).length
        ≤ max 1 (pySplitChars ((joinWords ((pySplitChars l).take maxW)).take e)).length :=
          count_rstrip_append_ell _
      _ ≤ max 1 (pySplitChars (joinWords ((pySplitChars l).take maxW))).length :=
          max_le_max (le_refl 1) (pySplitChars_take_le _ _)
      _ = max 1 maxW := by rw [hjoin]
      _ = maxW := Nat.max_eq_right h0

theorem capToWordLimit_of_le (s : String) (maxW : Nat) (h : wordCount s ≤ maxW) :
    capToWordLimit s maxW = s := by
  rw [capToWordLimit, capChars_of_le _ _ h]
  rfl

theorem capToWordLimit_count_le (s : String) (maxW : Nat) (h0 : 0 < maxW)
    (h : maxW < wordCount s) : wordCount (capToWordLimit s maxW) ≤ maxW :=
  capChars_count_le s.toList maxW h0 h

/-! Lemmas about the score dict (`bumpScore`, `scoreSentence`, `sentenceScores`). -/

theorem lookupScore_bumpScore (m : List (String × Nat)) (k a : String) (v : Nat) :
    lookupScore (bumpScore m k v) a = lookupScore m a + (if a = k then v else 0) := by
  induction m with
  | nil =>
    simp only [bumpScore, lookupScore]
    by_cases h : k = a
    · subst h
      simp
    · rw [if_neg h, if_neg (fun hh => h hh.symm), Nat.zero_add]
  | cons p rest ih =>
    by_cases h : p.1 = k
    · rw [bumpScore, if_pos h]
      by_cases h2 : p.1 = a
      · rw [lookupScore, if_pos h2, lookupScore, if_pos h2, if_pos (h2.symm.trans h)]
      · rw [lookupScore, if_neg h2, lookupScore, if_neg h2,
          if_neg (fun hak => h2 (h.trans hak.symm)), Nat.add_zero]
    · rw [bumpScore, if_neg h]
      by_cases h2 : p.1 = a
      · rw [lookupScore, if_pos h2, lookupScore, if_pos h2,
          if_neg (fun hak => h (h2.trans hak)), Nat.add_zero]
      · rw [lookupScore, if_neg h2, lookupScore, if_neg h2, ih]

theorem keys_bumpScore (m : List (String × Nat)) (k : String) (v : Nat) :
    (bumpScore m k v).map Prod.fst =
      if k ∈ m.map Prod.fst then m.map Prod.fst else m.map Prod.fst ++ [k] := by
  induction m with
  | nil => simp [bumpScore]
  | cons p rest ih =>
    by_cases h : p.1 = k
    · rw [bumpScore, if_pos h]
      simp [h]
    · rw [bumpScore, if_neg h]
      simp only [List.map_cons, ih]
      by_cases h2 : k ∈ rest.map Prod.fst
      · rw [if_pos h2, if_pos (List.mem_cons_of_mem _ h2)]
      · rw [if_neg h2, if_neg ?hn, List.cons_append]
        case hn =>
          intro hmem
          rcases List.mem_cons.mp hmem with h3 | h3
          · exact h h3.symm
          · exact h2 h3

theorem mem_keys_bumpScore (m : List (String × Nat)) (k a : String) (v : Nat) :
    a ∈ (bumpScore m k v).map Prod.fst ↔ a ∈ m.map Prod.fst ∨ a = k := by
  rw [keys_bumpScore]
  by_cases h : k ∈ m.map Prod.fst
  · rw [if_pos h]
    constructor
    · exact Or.inl
    · rintro (h2 | rfl)
      · exact h2
      · exact h
  · rw [if_neg h]
    simp

theorem nodup_keys_bumpScore (m : List (String × Nat)) (k : String) (v : Nat)
    (h : (m.map Prod.fst).Nodup) : ((bumpScore m k v).map Prod.fst).Nodup := by
  rw [keys_bumpScore]
  by_cases h2 : k ∈ m.map Prod.fst
  · rw [if_pos h2]
    exact h
  · rw [if_neg h2]
    simp [List.nodup_append, h, h2]

theorem scoreSentence_cons (ws : List String) (m : List (String × Nat)) (s w : String)
    (rest : List String) :
    scoreSentence ws m s (w :: rest) =
      scoreSentence ws (if ws.contains w then bumpScore m s (ws.count w) else m) s rest := rfl

theorem sentenceRawScore_cons (ws : List String) (w : String) (rest : List String) :
    sentenceRawScore ws (w :: rest) =
      (if ws.contains w then ws.count w else 0) + sentenceRawScore ws rest := by
  simp [sentenceRawScore]

theorem lookupScore_scoreSentence (ws : List String) (toks : List String) :
    ∀ (m : List (String × Nat)) (s a : String),
      lookupScore (scoreSentence ws m s toks) a =
        lookupScore m a + (if a = s then sentenceRawScore ws toks else 0) := by
  induction toks with
  | nil =>
    intro m s a
    simp [scoreSentence, sentenceRawScore]
  | cons w rest ih =>
    intro m s a
    rw [scoreSentence_cons, sentenceRawScore_cons]
    by_cases hw : ws.contains w = true
    · rw [if_pos hw, ih, lookupScore_bumpScore]
      by_cases ha : a = s
      · rw [if_pos ha, if_pos ha, if_pos ha, if_pos hw]
        omega
      · rw [if_neg ha, if_neg ha, if_neg ha]
    · rw [if_neg hw, ih, if_neg hw, Nat.zero_add]

theorem mem_keys_scoreSentence (ws : List String) (toks : List String) :
    ∀ (m : List (String × Nat)) (s a : String),
      a ∈ (scoreSentence ws m s toks).map Prod.fst ↔
        a ∈ m.map Prod.fst ∨ (a = s ∧ toks.any (fun w => ws.contains w) = true) := by
  induction toks with
  | nil =>
    intro m s a
    simp [scoreSentence]
  | cons w rest ih =>
    intro m s a
    rw [scoreSentence_cons]
    by_cases hw : ws.contains w = true
    · rw [if_pos hw, ih, mem_keys_bumpScore]
      simp only [List.any_cons, hw, Bool.true_or, and_true]
      tauto
    · rw [if_neg hw, ih]
      have hw2 : ws.contains w = false := Bool.eq_false_iff.mpr hw
      simp only [List.any_cons, hw2, Bool.false_or]

theorem nodup_keys_scoreSentence (ws : List String) (toks : List String) :
    ∀ (m : List (String × Nat)) (s : String), (m.map Prod.fst).Nodup →
      ((scoreSentence ws m s toks).map Prod.fst).Nodup := by
  induction toks with
  | nil =>
    intro m s h
    exact h
  | cons w rest ih =>
    intro m s h
    rw [scoreSentence_cons]
    by_cases hw : ws.contains w = true
    · rw [if_pos hw]
      exact ih _ _ (nodup_keys_bumpScore _ _ _ h)
    · rw [if_neg hw]
      exact ih _ _ h

theorem mem_keys_scoresFold (ws : List String) (pairs : List (String × List String)) :
    ∀ (m : List (String × Nat)) (a : String),
      a ∈ ((pairs.foldl (fun m p => scoreSentence ws m p.1 p.2) m).map Prod.fst) ↔
        a ∈ m.map Prod.fst ∨
          ∃ p ∈ pairs, a = p.1 ∧ p.2.any (fun w => ws.contains w) = true := by
  induction pairs with
  | nil =>
    intro m a
    simp
  | cons p rest ih =>
    intro m a
    rw [List.foldl_cons, ih, mem_keys_scoreSentence]
    constructor
    · rintro (⟨h1 | ⟨rfl, h2⟩⟩ | ⟨q, hq, rfl, h3⟩)
      · exact Or.inl h1
      · exact Or.inr ⟨p, List.mem_cons_self p rest, rfl, h2⟩
      · exact Or.inr ⟨q, List.mem_cons_of_mem p hq, rfl, h3⟩
    · rintro (h1 | ⟨q, hq, rfl, h3⟩)
      · exact Or.inl (Or.inl h1)
      · rcases List.mem_cons.mp hq with rfl | hq2
        · exact Or.inl (Or.inr ⟨rfl, h3⟩)
        · exact Or.inr ⟨q, hq2, rfl, h3⟩

theorem nodup_keys_scoresFold (ws : List String) (pairs : List (String × List String)) :
    ∀ (m : List (String × Nat)), (m.map Prod.fst).Nodup →
      ((pairs.foldl (fun m p => scoreSentence ws m p.1 p.2) m).map Prod.fst).Nodup := by
  induction pairs with
  | nil =>
    intro m h
    exact h
  | cons p rest ih =>
    intro m h
    rw [List.foldl_cons]
    exact ih _ (nodup_keys_scoreSentence _ _ _ _ h)

theorem mem_keys_sentenceScores (ws : List String) (pairs : List (String × List String))
    (a : String) :
    a ∈ (sentenceScores ws pairs).map Prod.fst ↔
      ∃ p ∈ pairs, a = p.1 ∧ p.2.any (fun w => ws.contains w) = true := by
  rw [sentenceScores, mem_keys_scoresFold]
  simp

theorem nodup_keys_sentenceScores (ws : List String) (pairs : List (String × List String)) :
    ((sentenceScores ws pairs).map Prod.fst).Nodup :=
  nodup_keys_scoresFold ws pairs [] (by simp)

theorem lookupScore_scoresFold_zip (ws : List String) (ss : List String)
    (f : String → List String) :
    ∀ (m : List (String × Nat)) (a : String),
      lookupScore ((ss.zip (ss.map f)).foldl (fun m p => scoreSentence ws m p.1 p.2) m) a =
        lookupScore m a + ss.count a * sentenceRawScore ws (f a) := by
  induction ss with
  | nil =>
    intro m a
    simp
  | cons s rest ih =>
    intro m a
    rw [List.map_cons, List.zip_cons_cons, List.foldl_cons, ih, lookupScore_scoreSentence]
    by_cases ha : a = s
    · subst ha
      rw [if_pos rfl, List.count_cons_self]
      ring
    · rw [if_neg ha, List.count_cons_of_ne ha, Nat.add_zero]

/-! Lemmas about sorting, reassembly and the summarizer control flow. -/

theorem insertDesc_perm (x : String × Nat) (l : List (String × Nat)) :
    (insertDesc x l).Perm (x :: l) := by
  induction l with
  | nil => exact List.Perm.refl _
  | cons y ys ih =>
    by_cases h : y.2 ≤ x.2
    · rw [insertDesc, if_pos h]
    · rw [insertDesc, if_neg h]
      exact (ih.cons y).trans (List.Perm.swap x y ys)

theorem sortDesc_perm (l : List (String × Nat)) : (sortDesc l).Perm l := by
  induction l with
  | nil => exact List.Perm.refl _
  | cons x xs ih => exact (insertDesc_perm x (sortDesc xs)).trans (ih.cons x)

theorem collectTop_eq_take_filter (top : List String) (maxS : Nat) :
    ∀ (l acc : List String), acc.length < maxS →
      collectTop top maxS l acc =
        acc ++ (l.filter (fun s => top.contains s)).take (maxS - acc.length) := by
  intro l
  induction l with
  | nil =>
    intro acc _
    simp [collectTop]
  | cons s rest ih =>
    intro acc hacc
    by_cases h : top.contains s = true
    · by_cases h2 : maxS ≤ acc.length + 1
      · have h3 : maxS - acc.length = 1 := by omega
        rw [collectTop, if_pos h, if_pos h2, List.filter_cons_of_pos h, h3,
          List.take_succ_cons, List.take_zero]
      · have h4 : (acc ++ [s]).length < maxS := by
          rw [List.length_append, List.length_singleton]
          omega
        have h5 : maxS - acc.length = (maxS - (acc ++ [s]).length) + 1 := by
          rw [List.length_append, List.length_singleton]
          omega
        rw [collectTop, if_pos h, if_neg h2, ih (acc ++ [s]) h4, List.filter_cons_of_pos h,
          h5, List.take_succ_cons, List.append_assoc, List.singleton_append]
    · rw [collectTop, if_neg h, ih acc hacc, List.filter_cons_of_neg h]

theorem collectTop_append_sublist (top : List String) (maxS : Nat) :
    ∀ (l acc : List String), ∃ t, collectTop top maxS l acc = acc ++ t ∧ t.Sublist l := by
  intro l
  induction l with
  | nil =>
    intro acc
    exact ⟨[], by simp [collectTop], List.nil_sublist _⟩
  | cons s rest ih =>
    intro acc
    by_cases h : top.contains s = true
    · by_cases h2 : maxS ≤ acc.length + 1
      · refine ⟨[s], by rw [collectTop, if_pos h, if_pos h2], ?_⟩
        exact (List.nil_sublist rest).cons₂ s
      · obtain ⟨t, ht, hsub⟩ := ih (acc ++ [s])
        refine ⟨s :: t, ?_, hsub.cons₂ s⟩
        rw [collectTop, if_pos h, if_neg h2, ht, List.append_assoc, List.singleton_append]
    · obtain ⟨t, ht, hsub⟩ := ih acc
      exact ⟨t, by rw [collectTop, if_neg h, ht], hsub.trans (List.sublist_cons_self s rest)⟩

theorem tokenizeAll_map_fst (T : Tok) :
    ∀ (ss : List String) (pairs : List (String × List String)),
      tokenizeAll T ss = some pairs → pairs.map Prod.fst = ss := by
  intro ss
  induction ss with
  | nil =>
    intro pairs h
    rw [tokenizeAll] at h
    cases h
    rfl
  | cons s rest ih =>
    intro pairs h
    rw [tokenizeAll] at h
    cases hw : T.wordTokenize (pyLower s) with
    | none =>
      rw [hw] at h
      simp at h
    | some toks =>
      rw [hw] at h
      cases hr : tokenizeAll T rest with
      | none =>
        rw [hr] at h
        simp at h
      | some ps =>
        rw [hr] at h
        simp only [Option.some.injEq] at h
        subst h
        rw [List.map_cons, ih ps hr]

theorem tryBody_of_short (T : Tok) (text : String) (maxS : Nat) (ss : List String)
    (hs : T.sentTokenize text = some ss) (hlen : ss.length ≤ maxS) :
    tryBody T text maxS = some text := by
  simp only [tryBody, hs, if_pos hlen]

theorem tryBody_of_scored (T : Tok) (text : String) (maxS : Nat) (ss stop toks : List String)
    (pairs : List (String × List String))
    (hs : T.sentTokenize text = some ss) (hlen : ¬ ss.length ≤ maxS)
    (hstop : T.stopwords = some stop)
    (htoks : T.wordTokenize (pyLower text) = some toks)
    (hpairs : tokenizeAll T ss = some pairs) :
    tryBody T text maxS = some (String.intercalate spaceStr (collectTop
      (((sortDesc (sentenceScores (summarizerWords stop toks) pairs)).take maxS).map Prod.fst)
      maxS ss [])) := by
  simp only [tryBody, hs, hstop, htoks, hpairs, if_neg hlen]

theorem create_of_try_some (T : Tok) (text : String) (maxS : Nat) (r : String)
    (h : tryBody T text maxS = some r) : create_better_summary T text maxS = some r := by
  simp only [create_better_summary, h]

theorem create_of_try_none (T : Tok) (text : String) (maxS : Nat) (ss : List String)
    (h : tryBody T text maxS = none) (hs : T.sentTokenize text = some ss) :
    create_better_summary T text maxS =
      some (String.intercalate spaceStr (ss.take maxS)) := by
  simp only [create_better_summary, h, hs]

theorem create_none_of_sent_none (T : Tok) (text : String) (maxS : Nat)
    (hs : T.sentTokenize text = none) : create_better_summary T text maxS = none := by
  have hb : tryBody T text maxS = none := by simp only [tryBody, hs]
  simp only [create_better_summary, hb, hs]

theorem contains_iff_mem (l : List String) (a : String) : l.contains a = true ↔ a ∈ l :=
  List.elem_iff

/-! Claim theorems. -/

/-- C1: the claim states that `create_better_summary` never raises past its
own boundary - any error during tokenization or scoring is caught and a
string is still returned, the fallback being the terminal error boundary.
The code violates this: when the sentence tokenizer itself raises (for
example, the NLTK `punkt` resource is unavailable), the `except` fallback
calls `sent_tokenize` again and that second call raises too, so the exception
escapes.  This theorem evaluates the model at such a failing input: the
result is `none`, an escaped exception rather than a returned string. -/
theorem c1_fallback_reraises :
    create_better_summary failSentTok ("Hello world.") 5 = none := rfl

/-- C3 counterexample: with a word tokenizer that raises (a scoring-stage
TokenizationFailure) and max_sentences 1, the function returns the first
sentence-tokenizer chunk "alpha beta.", not the first whitespace-delimited
chunk "alpha" that the claim promises. -/
theorem c3_counterexample_claim :
    create_better_summary wordFailTok ("alpha beta. gamma delta.") 1 = some ("alpha beta.")
    ∧ String.intercalate spaceStr ((pySplit ("alpha beta. gamma delta.")).take 1) = ("alpha")
    ∧ ("alpha beta.") ≠ ("alpha") :=
  ⟨by decide, by decide, by decide⟩

/-- C3 (amended): when tokenization or scoring fails inside the try block but
sentence tokenization succeeds, `create_better_summary` does not raise and
returns the first max_sentences SENTENCE-TOKENIZER chunks joined by single
spaces; when sentence tokenization itself fails there is no whole-text
fallback - the exception escapes (modelled as `none`). -/
theorem c3_fallback_amended (T : Tok) (text : String) (maxS : Nat) :
    (∀ ss, T.sentTokenize text = some ss → tryBody T text maxS = none →
      create_better_summary T text maxS =
        some (String.intercalate spaceStr (ss.take maxS)))
    ∧ (T.sentTokenize text = none → create_better_summary T text maxS = none) :=
  ⟨fun ss hs hb => create_of_try_none T text maxS ss hb hs,
   fun hs => create_none_of_sent_none T text maxS hs⟩

/-- Witness for C3 (amended): a failing word tokenizer makes the fallback
return the first sentence chunk, and a failing sentence tokenizer makes the
whole call fail. -/
theorem c3_fallback_amended_witness :
    create_better_summary wordFailTok ("epsilon zeta. eta theta.") 1 =
      some (String.intercalate spaceStr
        ((naiveSentTokenize ("epsilon zeta. eta theta.")).take 1))
    ∧ create_better_summary failSentTok ("Hello there.") 3 = none :=
  ⟨(c3_fallback_amended wordFailTok ("epsilon zeta. eta theta.") 1).1
      (naiveSentTokenize ("epsilon zeta. eta theta.")) rfl (by decide),
   (c3_fallback_amended failSentTok ("Hello there.") 3).2 rfl⟩

/-- C4: for every document whose sentence count (as produced by the sentence
tokenizer) is at most max_sentences, `create_better_summary` returns the
input text unchanged (identity law). -/
theorem c4_identity_law (T : Tok) (text : String) (maxS : Nat) (ss : List String)
    (hs : T.sentTokenize text = some ss) (hlen : ss.length ≤ maxS) :
    create_better_summary T text maxS = some text :=
  create_of_try_some T text maxS text (tryBody_of_short T text maxS ss hs hlen)

/-- Witness for C4 at the specification's scenario: summarizing "Short text."
with max_sentences 5 returns "Short text." byte for byte. -/
theorem c4_identity_law_witness :
    create_better_summary demoTok ("Short text.") 5 = some ("Short text.") :=
  c4_identity_law demoTok ("Short text.") 5 (naiveSentTokenize ("Short text."))
    rfl (by decide)

/-- C5 counterexample: on the identity path the output is the input text
itself, which is NOT the space-join of any subsequence of the tokenized
sentence sequence when the original sentence separator is not a single space
(here a newline separates the two sentences), so the claim's "space-join of a
subsequence" form fails as stated. -/
theorem c5_counterexample_claim :
    create_better_summary demoTok ("A.\nB.") 5 = some ("A.\nB.")
    ∧ demoTok.sentTokenize ("A.\nB.") = some ((["A.", "B."]))
    ∧ ∀ sub : List String, sub.Sublist ((["A.", "B."])) →
        String.intercalate spaceStr sub ≠ ("A.\nB.") := by
  refine ⟨by decide, by decide, ?_⟩
  intro sub hsub
  have hmem : sub ∈ ((["A.", "B."] : List String)).sublists := List.mem_sublists.mpr hsub
  fin_cases hmem <;> decide

/-- C5 (amended): every string returned by `create_better_summary` is either
the input text unchanged (the short-document identity path) or the space-join
of an order-preserving subsequence of the tokenized sentence sequence (the
scoring path and the truncation fallback). -/
theorem c5_selection_amended (T : Tok) (text : String) (maxS : Nat) (out : String)
    (h : create_better_summary T text maxS = some out) :
    out = text ∨ ∃ ss sub, T.sentTokenize text = some ss ∧ sub.Sublist ss ∧
      out = String.intercalate spaceStr sub := by
  cases hs : T.sentTokenize text with
  | none =>
    rw [create_none_of_sent_none T text maxS hs] at h
    cases h
  | some ss =>
    by_cases hlen : ss.length ≤ maxS
    · rw [create_of_try_some T text maxS text (tryBody_of_short T text maxS ss hs hlen)] at h
      injection h with h2
      exact Or.inl h2.symm
    · cases hstop : T.stopwords with
      | none =>
        have hb : tryBody T text maxS = none := by
          simp only [tryBody, hs, if_neg hlen, hstop]
        rw [create_of_try_none T text maxS ss hb hs] at h
        injection h with h2
        exact Or.inr ⟨ss, ss.take maxS, rfl, List.take_sublist maxS ss, h2.symm⟩
      | some stop =>
        cases htoks : T.wordTokenize (pyLower text) with
        | none =>
          have hb : tryBody T text maxS = none := by
            simp only [tryBody, hs, if_neg hlen, hstop, htoks]
          rw [create_of_try_none T text maxS ss hb hs] at h
          injection h with h2
          exact Or.inr ⟨ss, ss.take maxS, rfl, List.take_sublist maxS ss, h2.symm⟩
        | some toks =>
          cases hpairs : tokenizeAll T ss with
          | none =>
            have hb : tryBody T text maxS = none := by
              simp only [tryBody, hs, if_neg hlen, hstop, htoks, hpairs]
            rw [create_of_try_none T text maxS ss hb hs] at h
            injection h with h2
            exact Or.inr ⟨ss, ss.take maxS, rfl, List.take_sublist maxS ss, h2.symm⟩
          | some pairs =>
            rw [create_of_try_some _ _ _ _
              (tryBody_of_scored T text maxS ss stop toks pairs hs hlen hstop htoks hpairs)] at h
            injection h with h2
            obtain ⟨t, ht, hsub⟩ := collectTop_append_sublist
              (((sortDesc (sentenceScores (summarizerWords stop toks) pairs)).take
                maxS).map Prod.fst) maxS ss []
            rw [List.nil_append] at ht
            refine Or.inr ⟨ss, t, rfl, hsub, ?_⟩
            rw [← h2, ht]

/-- Witness for C5 (amended) at a concrete short document. -/
theorem c5_selection_amended_witness :
    ("One. Two.") = ("One. Two.") ∨ ∃ ss sub,
      demoTok.sentTokenize ("One. Two.") = some ss ∧ sub.Sublist ss ∧
      ("One. Two.") = String.intercalate spaceStr sub :=
  c5_selection_amended demoTok ("One. Two.") 5 ("One. Two.") (by decide)

/-- C6 counterexample: in the document "big cat runs. big cat runs. dog
naps." the sentence "big cat runs." occurs twice; its score-dict entry is
12, twice the per-occurrence sum 6 of its words' document frequencies, so the
claimed equality (score = per-occurrence sum) fails on duplicated sentences. -/
theorem c6_counterexample_claim :
    tokenizeAll demoTok (naiveSentTokenize ("big cat runs. big cat runs. dog naps.")) =
      some ((naiveSentTokenize ("big cat runs. big cat runs. dog naps.")).zip
        ((naiveSentTokenize ("big cat runs. big cat runs. dog naps.")).map
          (fun s => naiveWordTokenize (pyLower s))))
    ∧ lookupScore
        (sentenceScores
          (summarizerWords demoStopwords
            (naiveWordTokenize (pyLower ("big cat runs. big cat runs. dog naps."))))
          ((naiveSentTokenize ("big cat runs. big cat runs. dog naps.")).zip
            ((naiveSentTokenize ("big cat runs. big cat runs. dog naps.")).map
              (fun s => naiveWordTokenize (pyLower s)))))
        ("big cat runs.") = 12
    ∧ sentenceRawScore
        (summarizerWords demoStopwords
          (naiveWordTokenize (pyLower ("big cat runs. big cat runs. dog naps."))))
        (naiveWordTokenize (pyLower ("big cat runs."))) = 6 :=
  ⟨by decide, by decide, by decide⟩

/-- C6 (amended): the score-dict entry of a sentence text equals the number
of occurrences of that text in the sentence sequence times the per-occurrence
sum over its word tokens of the document frequency (words absent from the
table, stopwords and non-alphanumeric tokens included, contribute 0; a word
occurring twice in a sentence contributes twice).  For a sentence occurring
once this is exactly the claim's sum. -/
theorem c6_scores_amended (ws : List String) (ss : List String)
    (f : String → List String) (a : String) :
    lookupScore (sentenceScores ws (ss.zip (ss.map f))) a =
      ss.count a * sentenceRawScore ws (f a) := by
  have h := lookupScore_scoresFold_zip ws ss f [] a
  simpa [sentenceScores, lookupScore] using h

/-- C9: if the external translation call raises, the returned `summary_zh`
equals `summary_en` exactly - the untranslated summary is the fallback and
the error is not surfaced. -/
theorem c9_translation_fallback (translate : String → Option String) (s : String)
    (h : translate s = none) :
    (newsSummaryFields translate s).2 = (newsSummaryFields translate s).1 := by
  simp only [newsSummaryFields, translateStep, h]

/-- Witness for C9 with a translator that always raises. -/
theorem c9_translation_fallback_witness :
    (newsSummaryFields (fun _ => none) ("Hello.")).2 =
      (newsSummaryFields (fun _ => none) ("Hello.")).1 :=
  c9_translation_fallback (fun _ => none) ("Hello.") rfl

/-- C2 counterexample: the document "cat dog. the of. is the." has 3
sentences and max_sentences is 2, but two sentences consist only of stopwords
and punctuation, so they never enter the score dict; the output "cat dog." is
a single sentence - it is not the join of any 2-element subsequence of the
sentence sequence, contradicting the claimed "exactly max_sentences". -/
theorem c2_counterexample_claim :
    create_better_summary demoTok ("cat dog. the of. is the.") 2 = some ("cat dog.")
    ∧ demoTok.sentTokenize ("cat dog. the of. is the.") =
        some ((["cat dog.", "the of.", "is the."]))
    ∧ ∀ chosen : List String, chosen.Sublist ((["cat dog.", "the of.", "is the."])) →
        chosen.length = 2 → String.intercalate spaceStr chosen ≠ ("cat dog.") := by
  refine ⟨by decide, by decide, ?_⟩
  intro chosen hsub hlen hcontra
  obtain ⟨a, b, rfl⟩ := List.length_eq_two.mp hlen
  have ha : a ∈ (["cat dog.", "the of.", "is the."] : List String) :=
    hsub.subset (List.mem_cons_self a [b])
  have hb : b ∈ (["cat dog.", "the of.", "is the."] : List String) :=
    hsub.subset (List.mem_cons_of_mem a (List.mem_cons_self b []))
  fin_cases ha <;> fin_cases hb <;> exact absurd hcontra (by decide)

/-- Length of the original-order selection of the top `maxS` sentence texts:
when the sentence list and the score-dict keys are duplicate-free and carry
the same members, filtering the sentences by membership in the top `maxS`
keys of the stable descending sort keeps exactly `maxS` sentences. -/
theorem top_filter_length (ss : List String) (scores : List (String × Nat)) (maxS : Nat)
    (hnd : ss.Nodup) (hknd : (scores.map Prod.fst).Nodup)
    (hsub1 : ∀ a ∈ scores.map Prod.fst, a ∈ ss)
    (hsub2 : ∀ a ∈ ss, a ∈ scores.map Prod.fst)
    (hlen : maxS < ss.length) :
    (ss.filter (fun s =>
      (((sortDesc scores).take maxS).map Prod.fst).contains s)).length = maxS := by
  have hperm : (scores.map Prod.fst).Perm ss :=
    (hknd.subperm (fun a ha => hsub1 a ha)).antisymm (hnd.subperm (fun a ha => hsub2 a ha))
  have hlen_scores : scores.length = ss.length := by
    have h1 := hperm.length_eq
    rwa [List.length_map] at h1
  have hsort_perm : (sortDesc scores).Perm scores := sortDesc_perm scores
  have htop_len : (((sortDesc scores).take maxS).map Prod.fst).length = maxS := by
    rw [List.length_map, List.length_take, hsort_perm.length_eq, hlen_scores]
    omega
  have htop_nd : (((sortDesc scores).take maxS).map Prod.fst).Nodup := by
    have h1 : ((sortDesc scores).map Prod.fst).Nodup := (hsort_perm.map Prod.fst).symm.nodup hknd
    rw [List.map_take]
    exact List.Nodup.sublist (List.take_sublist _ _) h1
  have htop_sub : ∀ a ∈ ((sortDesc scores).take maxS).map Prod.fst, a ∈ ss := by
    intro a ha
    obtain ⟨p, hp, rfl⟩ := List.mem_map.mp ha
    exact hsub1 p.1 (List.mem_map_of_mem Prod.fst (hsort_perm.mem_iff.mp (List.take_subset _ _ hp)))
  have hmatch_perm : (ss.filter (fun s =>
      (((sortDesc scores).take maxS).map Prod.fst).contains s)).Perm
      (((sortDesc scores).take maxS).map Prod.fst) := by
    apply List.Subperm.antisymm
    · apply (hnd.filter _).subperm
      intro a ha
      exact (contains_iff_mem _ _).mp (List.mem_filter.mp ha).2
    · apply htop_nd.subperm
      intro a ha
      exact List.mem_filter.mpr ⟨htop_sub a ha, (contains_iff_mem _ _).mpr ha⟩
  rw [hmatch_perm.length_eq, htop_len]

/-- C2 (amended): when sentence and word tokenization succeed, the document
has more than max_sentences sentences, max_sentences is positive, the
sentence texts are pairwise distinct, and every sentence contains at least
one frequency-table word, the successful path of `create_better_summary`
returns exactly max_sentences sentences: the sentences whose text is among
the top max_sentences texts of the stable score-descending sort (ties broken
by the order the ranking encountered them), re-ordered into original
document order.  Without the distinctness and scored-word hypotheses the
count can fall short or repeat (see the counterexample). -/
theorem c2_top_selection_amended (T : Tok) (text : String) (maxS : Nat)
    (ss stop toks : List String) (pairs : List (String × List String))
    (hs : T.sentTokenize text = some ss)
    (hstop : T.stopwords = some stop)
    (htoks : T.wordTokenize (pyLower text) = some toks)
    (hpairs : tokenizeAll T ss = some pairs)
    (hlen : maxS < ss.length) (h0 : 0 < maxS)
    (hnd : ss.Nodup)
    (hscored : ∀ p ∈ pairs,
      p.2.any (fun w => (summarizerWords stop toks).contains w) = true) :
    ∃ chosen : List String,
      create_better_summary T text maxS = some (String.intercalate spaceStr chosen) ∧
      chosen = ss.filter (fun s =>
        (((sortDesc (sentenceScores (summarizerWords stop toks) pairs)).take maxS).map
          Prod.fst).contains s) ∧
      chosen.length = maxS := by
  have hnle : ¬ ss.length ≤ maxS := Nat.not_le.mpr hlen
  have hfst : pairs.map Prod.fst = ss := tokenizeAll_map_fst T ss pairs hpairs
  have hsub1 : ∀ a ∈ (sentenceScores (summarizerWords stop toks) pairs).map Prod.fst,
      a ∈ ss := by
    intro a ha
    obtain ⟨p, hp, rfl, _⟩ := (mem_keys_sentenceScores _ pairs a).mp ha
    rw [← hfst]
    exact List.mem_map_of_mem Prod.fst hp
  have hsub2 : ∀ a ∈ ss, a ∈ (sentenceScores (summarizerWords stop toks) pairs).map
      Prod.fst := by
    intro a ha
    rw [← hfst] at ha
    obtain ⟨p, hp, rfl⟩ := List.mem_map.mp ha
    exact (mem_keys_sentenceScores _ pairs p.1).mpr ⟨p, hp, rfl, hscored p hp⟩
  have hflen := top_filter_length ss (sentenceScores (summarizerWords stop toks) pairs)
    maxS hnd (nodup_keys_sentenceScores _ pairs) hsub1 hsub2 hlen
  have hcoll : collectTop
      (((sortDesc (sentenceScores (summarizerWords stop toks) pairs)).take maxS).map
        Prod.fst) maxS ss [] =
      ss.filter (fun s =>
        (((sortDesc (sentenceScores (summarizerWords stop toks) pairs)).take maxS).map
          Prod.fst).contains s) := by
    rw [collectTop_eq_take_filter _ maxS ss [] (by simpa using h0), List.nil_append,
      List.length_nil, Nat.sub_zero]
    exact List.take_of_length_le (le_of_eq hflen)
  refine ⟨ss.filter (fun s =>
      (((sortDesc (sentenceScores (summarizerWords stop toks) pairs)).take maxS).map
        Prod.fst).contains s), ?_, rfl, hflen⟩
  have hb := tryBody_of_scored T text maxS ss stop toks pairs hs hnle hstop htoks hpairs
  rw [hcoll] at hb
  exact create_of_try_some T text maxS _ hb

/-- Witness for C2 (amended): a 3-sentence document of distinct scoring
sentences with max_sentences 2 yields exactly 2 sentences. -/
theorem c2_top_selection_amended_witness :
    ∃ chosen : List String,
      create_better_summary demoTok ("cat dog. dog emu. emu cat.") 2 =
        some (String.intercalate spaceStr chosen) ∧
      chosen = (naiveSentTokenize ("cat dog. dog emu. emu cat.")).filter (fun s =>
        (((sortDesc (sentenceScores
            (summarizerWords demoStopwords
              (naiveWordTokenize (pyLower ("cat dog. dog emu. emu cat."))))
            ((naiveSentTokenize ("cat dog. dog emu. emu cat.")).zip
              ((naiveSentTokenize ("cat dog. dog emu. emu cat.")).map
                (fun s => naiveWordTokenize (pyLower s)))))).take 2).map
          Prod.fst).contains s) ∧
      chosen.length = 2 :=
  c2_top_selection_amended demoTok ("cat dog. dog emu. emu cat.") 2
    (naiveSentTokenize ("cat dog. dog emu. emu cat.")) demoStopwords
    (naiveWordTokenize (pyLower ("cat dog. dog emu. emu cat.")))
    ((naiveSentTokenize ("cat dog. dog emu. emu cat.")).zip
      ((naiveSentTokenize ("cat dog. dog emu. emu cat.")).map
        (fun s => naiveWordTokenize (pyLower s))))
    rfl rfl rfl (by decide) (by decide) (by decide) (by decide) (by decide)

/-- C10: on the successful scoring path (document longer than max_sentences,
positive max_sentences, all tokenizer calls succeeding), the output of
`create_better_summary` is the space-join of at most max_sentences sentences
taken in order from the sentence sequence: the reassembly loop breaks as soon
as max_sentences sentences have been collected, so the ceiling holds even
with duplicate sentence texts or tied scores. -/
theorem c10_at_most_max_sentences (T : Tok) (text : String) (maxS : Nat)
    (ss stop toks : List String) (pairs : List (String × List String))
    (hs : T.sentTokenize text = some ss) (hlen : maxS < ss.length)
    (hstop : T.stopwords = some stop)
    (htoks : T.wordTokenize (pyLower text) = some toks)
    (hpairs : tokenizeAll T ss = some pairs) (h0 : 0 < maxS) :
    ∃ chosen : List String,
      create_better_summary T text maxS = some (String.intercalate spaceStr chosen) ∧
      chosen.length ≤ maxS ∧ chosen.Sublist ss := by
  have hnle : ¬ ss.length ≤ maxS := Nat.not_le.mpr hlen
  refine ⟨collectTop
      (((sortDesc (sentenceScores (summarizerWords stop toks) pairs)).take maxS).map
        Prod.fst) maxS ss [],
    create_of_try_some T text maxS _
      (tryBody_of_scored T text maxS ss stop toks pairs hs hnle hstop htoks hpairs),
    ?_, ?_⟩
  · rw [collectTop_eq_take_filter _ maxS ss [] (by simpa using h0), List.nil_append,
      List.length_nil, Nat.sub_zero]
    exact List.length_take_le _ _
  · obtain ⟨t, ht, hsub⟩ := collectTop_append_sublist
      (((sortDesc (sentenceScores (summarizerWords stop toks) pairs)).take maxS).map
        Prod.fst) maxS ss []
    rw [ht, List.nil_append]
    exact hsub

/-- Witness for C10: a 3-sentence document with max_sentences 2. -/
theorem c10_at_most_max_sentences_witness :
    ∃ chosen : List String,
      create_better_summary demoTok ("emu fox. fox gnu. gnu emu.") 2 =
        some (String.intercalate spaceStr chosen) ∧
      chosen.length ≤ 2 ∧ chosen.Sublist (naiveSentTokenize ("emu fox. fox gnu. gnu emu.")) :=
  c10_at_most_max_sentences demoTok ("emu fox. fox gnu. gnu emu.") 2
    (naiveSentTokenize ("emu fox. fox gnu. gnu emu.")) demoStopwords
    (naiveWordTokenize (pyLower ("emu fox. fox gnu. gnu emu.")))
    ((naiveSentTokenize ("emu fox. fox gnu. gnu emu.")).zip
      ((naiveSentTokenize ("emu fox. fox gnu. gnu emu.")).map
        (fun s => naiveWordTokenize (pyLower s))))
    rfl (by decide) rfl rfl (by decide) (by decide)

theorem pySplitAux_chars_subset (l : List Char) :
    ∀ (cur : List Char) (w : List Char), w ∈ pySplitAux l cur → ∀ c ∈ w, c ∈ l ∨ c ∈ cur := by
  induction l with
  | nil =>
    intro cur w hw c hc
    by_cases h : cur.isEmpty = true
    · rw [pySplitAux, if_pos h] at hw
      exact absurd hw (List.not_mem_nil w)
    · rw [pySplitAux, if_neg h] at hw
      rcases List.mem_singleton.mp hw with rfl
      exact Or.inr hc
  | cons x t ih =>
    intro cur w hw c hc
    by_cases hs : pyIsSpace x = true
    · by_cases h : cur.isEmpty = true
      · rw [pySplitAux, if_pos hs, if_pos h] at hw
        rcases ih [] w hw c hc with h1 | h1
        · exact Or.inl (List.mem_cons_of_mem x h1)
        · exact absurd h1 (List.not_mem_nil c)
      · rw [pySplitAux, if_pos hs, if_neg h] at hw
        rcases List.mem_cons.mp hw with rfl | hw2
        · exact Or.inr hc
        · rcases ih [] w hw2 c hc with h1 | h1
          · exact Or.inl (List.mem_cons_of_mem x h1)
          · exact absurd h1 (List.not_mem_nil c)
    · rw [pySplitAux, if_neg hs] at hw
      rcases ih (cur ++ [x]) w hw c hc with h1 | h1
      · exact Or.inl (List.mem_cons_of_mem x h1)
      · rcases List.mem_append.mp h1 with h2 | h2
        · exact Or.inr h2
        · have h3 := List.mem_singleton.mp h2
          rw [h3]
          exact Or.inl (List.mem_cons_self x t)

/-- C7: the word-capping step applied to `summary_en` with maxWords 500: a
string of at most 500 whitespace-split words is returned unchanged; the word
count of the result never exceeds the input's; a truncated result always ends
with the ellipsis marker (in particular with a sentence terminator or an
ellipsis marker); and an input of more than 500 words containing no sentence
punctuation at all is cut to exactly its first 500 words rejoined with spaces
plus the ellipsis marker (no sentence cut point exists).  The cut at the
last sentence-ending punctuation followed by whitespace is the `some` branch
of `capChars`. -/
theorem c7_cap_to_word_limit (s : String) :
    (wordCount s ≤ 500 → capToWordLimit s 500 = s)
    ∧ wordCount (capToWordLimit s 500) ≤ wordCount s
    ∧ (500 < wordCount s → ∃ t, capToWordLimit s 500 = t ++ ellipsisStr)
    ∧ (500 < wordCount s → s.toList.all (fun c => !(isPunct c)) = true →
        capToWordLimit s 500 =
          String.mk (joinWords ((pySplitChars s.toList).take 500) ++ ellipsisChars)) := by
  refine ⟨capToWordLimit_of_le s 500, ?_, ?_, ?_⟩
  · by_cases h : wordCount s ≤ 500
    · rw [capToWordLimit_of_le s 500 h]
    · exact le_trans
        (capToWordLimit_count_le s 500 (by norm_num) (Nat.lt_of_not_le h))
        (le_of_lt (Nat.lt_of_not_le h))
  · intro h
    have hnle : ¬ (pySplitChars s.toList).length ≤ 500 := Nat.not_le.mpr h
    cases he : lastEnding (joinWords ((pySplitChars s.toList).take 500)) with
    | none =>
      refine ⟨String.mk (joinWords ((pySplitChars s.toList).take 500)), ?_⟩
      rw [capToWordLimit]
      simp only [capChars, if_neg hnle, he]
      rfl
    | some e =>
      refine ⟨String.mk (rstripChars ((joinWords ((pySplitChars s.toList).take 500)).take e)),
        ?_⟩
      rw [capToWordLimit]
      simp only [capChars, if_neg hnle, he]
      rfl
  · intro h hp
    have hnle : ¬ (pySplitChars s.toList).length ≤ 500 := Nat.not_le.mpr h
    have hnp : ∀ c ∈ joinWords ((pySplitChars s.toList).take 500), isPunct c = false := by
      intro c hc
      rcases mem_joinWords _ c hc with rfl | ⟨w, hw, hcw⟩
      · decide
      · have hw2 : w ∈ pySplitChars s.toList := List.take_subset _ _ hw
        rcases pySplitAux_chars_subset s.toList [] w hw2 c hcw with h1 | h1
        · have h3 := List.all_eq_true.mp hp c h1
          simpa using h3
        · exact absurd h1 (List.not_mem_nil c)
    have he : lastEnding (joinWords ((pySplitChars s.toList).take 500)) = none := by
      rw [lastEnding]
      exact lastEndingAux_no_punct _ 0 none hnp
    rw [capToWordLimit]
    simp only [capChars, if_neg hnle, he]

/-- Witness for C7: a short string is returned unchanged, and the concrete
501-word punctuation-free string is cut to its first 500 words plus the
ellipsis marker. -/
theorem c7_cap_to_word_limit_witness :
    capToWordLimit ("Hello world.") 500 = ("Hello world.")
    ∧ capToWordLimit manyWordsStr 500 =
        String.mk (joinWords ((pySplitChars manyWordsStr.toList).take 500) ++
          ellipsisChars) := by
  constructor
  · exact (c7_cap_to_word_limit ("Hello world.")).1 (by decide)
  · refine (c7_cap_to_word_limit manyWordsStr).2.2.2 ?_ ?_
    · have hgood : ∀ w ∈ List.replicate 501 ((['a', 'b']) : List Char),
          w ≠ [] ∧ ∀ c ∈ w, pyIsSpace c = false := by
        intro w hw
        rcases List.eq_of_mem_replicate hw with rfl
        exact ⟨by simp, by decide⟩
      have h1 : pySplitChars (joinWords (List.replicate 501 (['a', 'b']))) =
          List.replicate 501 (['a', 'b']) := pySplit_joinWords _ hgood
      show 500 < (pySplitChars manyWordsStr.toList).length
      have h2 : manyWordsStr.toList = joinWords (List.replicate 501 (['a', 'b'])) := rfl
      rw [h2, h1, List.length_replicate]
      norm_num
    · show manyWordsStr.toList.all (fun c => !(isPunct c)) = true
      rw [List.all_eq_true]
      intro c hc
      have h2 : manyWordsStr.toList = joinWords (List.replicate 501 (['a', 'b'])) := rfl
      rw [h2] at hc
      rcases mem_joinWords _ c hc with rfl | ⟨w, hw, hcw⟩
      · decide
      · rcases List.eq_of_mem_replicate hw with rfl
        fin_cases hcw <;> decide

/-- C8: the word-capping transformation with maxWords 500 is idempotent:
applying it twice yields the same result as applying it once, because a
truncated result has at most 500 words and so takes the unchanged branch on
the second application. -/
theorem c8_cap_idempotent (s : String) :
    capToWordLimit (capToWordLimit s 500) 500 = capToWordLimit s 500 := by
  by_cases h : wordCount s ≤ 500
  · rw [capToWordLimit_of_le s 500 h, capToWordLimit_of_le s 500 h]
  · exact capToWordLimit_of_le _ 500
      (capToWordLimit_count_le s 500 (by norm_num) (Nat.lt_of_not_le h))
